import Mathlib

/-
Verification of the extraction/normalization core of the race-results
scraper (`scraper.py`).  The pure pipeline functions are embedded as
executable Lean definitions, translated directly from the source:
`score_result_array`, `find_result_arrays`, `FIELD_MAP`,
`normalize_result_row`, `deduplicate_results`, the pure part of
`scrape_dom_table`, the three `extract_*_data` wrappers, the JSON/DOM
dispatch of `intercept_api_data`, and `COLUMN_ORDER`.
-/

namespace RaceScraper

/-- JSON value tree, as captured from an intercepted API response
(`json.loads` output): object / array / string / number / bool / null. -/
inductive Json where
  | null
  | bool (b : Bool)
  | num (n : Int)
  | str (s : String)
  | arr (items : List Json)
  | obj (fields : List (String × Json))

/-- ASCII lower-casing of a string, mirroring Python `str.lower()` on the
ASCII field names the scraper deals with. -/
def pyLower (s : String) : String :=
  String.mk (s.toList.map Char.toLower)

/-- Python `str.strip()`: drop whitespace from both ends. -/
def pyStrip (s : String) : String :=
  String.mk ((((s.toList.dropWhile Char.isWhitespace).reverse).dropWhile
    Char.isWhitespace).reverse)

/-- Does `hay` start with `needle` (character lists)? -/
def listStartsWith : List Char → List Char → Bool
  | [], _ => true
  | _ :: _, [] => false
  | n :: ns, h :: hs => n == h && listStartsWith ns hs

/-- Does `needle` occur as a contiguous run inside `hay` (character lists)? -/
def listHasSub (needle : List Char) : List Char → Bool
  | [] => needle.isEmpty
  | c :: t => listStartsWith needle (c :: t) || listHasSub needle t

/-- Python `needle in hay` substring test on strings. -/
def pyIn (needle hay : String) : Bool :=
  listHasSub needle.toList hay.toList

mutual

/-- Python `repr` of a JSON value (used by `str` on lists/dicts). -/
def pyRepr : Json → String
  | Json.null => "None"
  | Json.bool b => if b then "True" else "False"
  | Json.num n => toString n
  | Json.str s => "\x27" ++ s ++ "\x27"
  | Json.arr items => "[" ++ pyReprList items ++ "]"
  | Json.obj fields => "\x7b" ++ pyReprFields fields ++ "\x7d"

/-- Comma-separated reprs of the elements of a Python list. -/
def pyReprList : List Json → String
  | [] => ""
  | [x] => pyRepr x
  | x :: y :: xs => pyRepr x ++ ", " ++ pyReprList (y :: xs)

/-- Comma-separated `key: value` reprs of the entries of a Python dict. -/
def pyReprFields : List (String × Json) → String
  | [] => ""
  | [(k, v)] => "\x27" ++ k ++ "\x27: " ++ pyRepr v
  | (k, v) :: e :: xs =>
      "\x27" ++ k ++ "\x27: " ++ pyRepr v ++ ", " ++ pyReprFields (e :: xs)

end

/-- Python `str(value)` for a JSON value (`str` of a string is itself,
everything else coincides with `repr`). -/
def pyStr : Json → String
  | Json.str s => s
  | v => pyRepr v

/-- A normalized result row: a Python dict from canonical field name to
string value, represented as an insertion-ordered association list with
unique keys (as built by repeated `row[k] = v` assignments). -/
abbrev Row := List (String × String)

/-- `k in row` for a Python dict. -/
def rowHas (r : Row) (k : String) : Bool :=
  r.any (fun p => p.1 == k)

/-- `row.get(k, "")` for a Python dict. -/
def rowGet (r : Row) (k : String) : String :=
  ((r.find? (fun p => p.1 == k)).map (fun p => p.2)).getD ""

/-- `row[k] = v` for a Python dict: overwrite in place when the key is
present (keys are unique, so the first occurrence is the occurrence),
otherwise append at the end (insertion order). -/
def rowInsert : Row → String → String → Row
  | [], k, v => [(k, v)]
  | p :: r, k, v => if p.1 == k then (p.1, v) :: r else p :: rowInsert r k v

/-- `FIELD_MAP` from the source, in source (insertion) order. -/
def FIELD_MAP : List (String × String) := [
  ("bibno", "bib"), ("bib_no", "bib"), ("bib_number", "bib"),
  ("bibnumber", "bib"), ("race_number", "bib"), ("start_number", "bib"),
  ("first_name", "first_name"), ("firstname", "first_name"),
  ("last_name", "last_name"), ("lastname", "last_name"),
  ("full_name", "full_name"), ("fullname", "full_name"),
  ("name", "full_name"), ("runner_name", "full_name"),
  ("participant_name", "full_name"),
  ("finished_time", "chip_time"), ("finish_time", "chip_time"),
  ("chip_time", "chip_time"), ("net_time", "chip_time"),
  ("chiptime", "chip_time"),
  ("gun_time", "gun_time"), ("guntime", "gun_time"),
  ("gross_time", "gun_time"),
  ("chip_pace", "pace"), ("pace", "pace"), ("avg_pace", "pace"),
  ("gun_pace", "gun_pace"),
  ("overall_rank", "overall_rank"), ("overallrank", "overall_rank"),
  ("bracket_rank", "category_rank"), ("category_rank", "category_rank"),
  ("gender_rank", "gender_rank"),
  ("gender", "gender"), ("sex", "gender"),
  ("age", "age"), ("age_group", "age_group"), ("agegroup", "age_group"),
  ("category", "category"), ("race_name", "race_category"),
  ("club", "club"), ("team", "club"), ("team_name", "club"),
  ("city", "city"), ("country", "country"), ("nationality", "nationality")]

/-- `FIELD_MAP.get(key)` (dict lookup). -/
def fieldMapGet (k : String) : Option String :=
  (FIELD_MAP.find? (fun p => p.1 == k)).map (fun p => p.2)

/-- One step of the field-mapping loop of `normalize_result_row`: look up
`orig_key.lower()` in `FIELD_MAP`; skip nested dict values; store
`str(value)` (`""` for `None`). -/
def normalizeFieldStep (row : Row) (kv : String × Json) : Row :=
  match fieldMapGet (pyLower kv.1) with
  | some nk =>
    match kv.2 with
    | Json.obj _ => row
    | Json.null => rowInsert row nk ""
    | v => rowInsert row nk (pyStr v)
  | none => row

/-- The field-mapping loop of `normalize_result_row` over all
`(orig_key, value)` pairs of the source dict. -/
def mapRowFields (item : List (String × Json)) : Row :=
  item.foldl normalizeFieldStep []

/-- `" ".join(p for p in parts if p).strip()` over
`[first_name, last_name]`. -/
def joinNameParts (first last : String) : String :=
  pyStrip (String.intercalate " " (([first, last]).filter (fun p => p ≠ "")))

/-- `normalize_result_row` from the source: map fields, then require at
least one of `bib`, `full_name`, `first_name`; synthesize `full_name` from
the name parts when absent. -/
def normalize_result_row (item : List (String × Json)) : Option Row :=
  let row := mapRowFields item
  let has_identity :=
    rowHas row "bib" || rowHas row "full_name" || rowHas row "first_name"
  if has_identity then
    if !rowHas row "full_name" && rowHas row "first_name" then
      some (rowInsert row "full_name"
        (joinNameParts (rowGet row "first_name") (rowGet row "last_name")))
    else
      some row
  else
    none

/-- `key = row.get("bib", "") or row.get("full_name", "")`. -/
def rowKey (row : Row) : String :=
  let b := rowGet row "bib"
  if b ≠ "" then b else rowGet row "full_name"

/-- The loop of `deduplicate_results`, with the `seen` set made explicit. -/
def dedupGo (seen : List String) : List Row → List Row
  | [] => []
  | row :: rest =>
    let key := rowKey row
    if key ≠ "" ∧ ¬ key ∈ seen then row :: dedupGo (key :: seen) rest
    else dedupGo seen rest

/-- `deduplicate_results` from the source. -/
def deduplicate_results (results : List Row) : List Row :=
  dedupGo [] results

/-- The strong indicator keys of `score_result_array`, in source order. -/
def strongKeys : List String :=
  ["bibno", "bib_no", "bib", "bib_number", "finished_time", "finish_time",
   "chip_time", "gun_time", "net_time", "pace", "rank", "overall_rank",
   "bracket_rank", "category_rank", "gender_rank"]

/-- The moderate indicator keys of `score_result_array`, in source order. -/
def moderateKeys : List String :=
  ["first_name", "last_name", "name", "full_name", "runner_name",
   "participant", "age", "gender", "sex", "category", "race_name",
   "race_id", "club", "city", "country", "nationality"]

/-- `score_result_array` from the source: sample `arr[0]`, +2 per strong
key, +1 per moderate key, +2 for length over 20, +2 for length over 100;
0 when the array is empty or its first element is not a dict. -/
def score_result_array (arr : List Json) : Nat :=
  match arr with
  | (Json.obj fields) :: _ =>
    let keys := fields.map (fun kv => pyLower kv.1)
    let s0 := strongKeys.foldl (fun acc s => if keys.contains s then acc + 2 else acc) 0
    let s1 := moderateKeys.foldl (fun acc m => if keys.contains m then acc + 1 else acc) s0
    let s2 := if arr.length > 20 then s1 + 2 else s1
    if arr.length > 100 then s2 + 2 else s2
  | _ => 0

/-- `isinstance(data, (list, dict))`. -/
def isListOrDict : Json → Bool
  | Json.arr _ => true
  | Json.obj _ => true
  | _ => false

/-- `isinstance(data, dict)`. -/
def isDictB : Json → Bool
  | Json.obj _ => true
  | _ => false

/-- The recursion of `find_result_arrays`, with the remaining depth budget
`max_depth + 1 - depth` carried as fuel: fuel `0` is exactly the source's
`depth > max_depth` early return, and each recursion into a dict value
spends one unit (`depth + 1`).  A non-empty array whose first element is a
dict is emitted when its score exceeds 2; recursion descends only into
dict values, never into array elements. -/
def findGo : Nat → Json → List Json
  | 0, _ => []
  | _ + 1, Json.arr (Json.obj f :: xs) =>
    if score_result_array (Json.obj f :: xs) > 2 then [Json.arr (Json.obj f :: xs)]
    else []
  | fuel + 1, Json.obj fields =>
    fields.flatMap (fun kv =>
      if isListOrDict kv.2 then findGo fuel kv.2 else [])
  | _ + 1, _ => []

/-- `find_result_arrays(data, depth, max_depth)` from the source
(defaults `depth=0`, `max_depth=5` at call sites). -/
def find_result_arrays (data : Json) (depth : Nat) (max_depth : Nat) : List Json :=
  findGo (max_depth + 1 - depth) data

/-- One rendered table cell: whether it is a `th` cell, plus its
`inner_text()`. -/
structure DomCell where
  th : Bool
  text : String

/-- One rendered `tr` row. -/
structure DomRow where
  cells : List DomCell

/-- One rendered `table`: its `tr` rows in document order. -/
structure DomTable where
  trs : List DomRow

/-- `h.replace(" ", "_")` on a header string. -/
def underscoreSpaces (s : String) : String :=
  String.mk (s.toList.map (fun c => if c == ' ' then '_' else c))

/-- The fuzzy header cascade of `scrape_dom_table`, evaluated in source
order with first match winning. -/
def fuzzyHeaderField (h : String) : Option String :=
  if pyIn "bib" h then some "bib"
  else if pyIn "name" h then some "full_name"
  else if pyIn "finish" h || pyIn "chip" h || pyIn "net" h then some "chip_time"
  else if pyIn "gun" h || pyIn "gross" h then some "gun_time"
  else if pyIn "rank" h || pyIn "pos" h then
    if pyIn "overall" h then some "overall_rank"
    else if pyIn "gender" h || pyIn "category" h then some "category_rank"
    else some "overall_rank"
  else if pyIn "pace" h then some "pace"
  else if pyIn "age" h then some "age_group"
  else if pyIn "gender" h || pyIn "sex" h then some "gender"
  else if pyIn "category" h || pyIn "race" h then some "category"
  else if pyIn "club" h || pyIn "team" h then some "club"
  else none

/-- Header-to-canonical-field mapping of `scrape_dom_table`: first the
`FIELD_MAP` substring pass over the underscored header, then the fuzzy
cascade. -/
def mapHeaderField (h : String) : Option String :=
  match FIELD_MAP.find? (fun kv => pyIn kv.1 (underscoreSpaces h)) with
  | some kv => some kv.2
  | none => fuzzyHeaderField h

/-- `results_keywords` from the source. -/
def resultsKeywords : List String :=
  ["bib", "name", "time", "finish", "rank", "pace", "position"]

/-- The stripped, lower-cased texts of all `th`/`td` cells of the header
row. -/
def tableHeaders (headerRow : DomRow) : List String :=
  headerRow.cells.map (fun c => pyLower (pyStrip c.text))

/-- `header_map` of `scrape_dom_table`: column index to canonical field,
for the columns that map to one. -/
def tableHeaderMap (headers : List String) : List (Nat × String) :=
  headers.enum.filterMap (fun p => (mapHeaderField p.2).map (fun n => (p.1, n)))

/-- The `td` cell texts of a body row. -/
def bodyCells (tr : DomRow) : List String :=
  (tr.cells.filter (fun c => !c.th)).map (fun c => c.text)

/-- `result_row` of `scrape_dom_table`: the stripped texts of the mapped
cells, keyed by their canonical field. -/
def buildBodyRow (headerMap : List (Nat × String)) (cells : List String) : Row :=
  cells.enum.foldl (fun acc p =>
    match headerMap.find? (fun q => q.1 == p.1) with
    | some q => rowInsert acc q.2 (pyStrip p.2)
    | none => acc) ([] : Row)

/-- Per body row: skip rows without `td` cells, build the mapped row, keep
it only when non-empty. -/
def extractBodyRow (headerMap : List (Nat × String)) (tr : DomRow) : Option Row :=
  if (bodyCells tr).length == 0 then none
  else if (buildBodyRow headerMap (bodyCells tr)).isEmpty then none
  else some (buildBodyRow headerMap (bodyCells tr))

/-- The per-table body of `scrape_dom_table`: require at least 3 `tr`
rows; headers are all `th`/`td` cells of the first row, stripped and
lower-cased; reject tables whose joined header text has no results
keyword; map header indices to canonical fields; build a row from the
mapped `td` cells of each body row, keeping only non-empty rows. -/
def scrapeTable (t : DomTable) : List Row :=
  if t.trs.length < 3 then []
  else
    match t.trs with
    | [] => []
    | headerRow :: bodyRows =>
      if (tableHeaders headerRow).isEmpty then []
      else if !resultsKeywords.any
          (fun kw => pyIn kw (String.intercalate " " (tableHeaders headerRow))) then []
      else bodyRows.filterMap
        (extractBodyRow (tableHeaderMap (tableHeaders headerRow)))

/-- `scrape_dom_table` over the page's tables (pure part: the rendered
cell texts are the input). -/
def scrape_dom_table (tables : List DomTable) : List Row :=
  tables.flatMap scrapeTable

/-- One captured JSON API response, as appended by `capture_response`. -/
structure RawPayload where
  byte_size : Nat
  data : Json

/-- `if isinstance(item, dict): row = normalize_result_row(item)` for one
element of a candidate array. -/
def jsonItemRow (item : Json) : Option Row :=
  match item with
  | Json.obj f => normalize_result_row f
  | _ => none

/-- All normalized rows of one candidate (non-array candidates contribute
nothing; the finder only emits arrays). -/
def candidateRows (c : Json) : List Row :=
  match c with
  | Json.arr xs => xs.filterMap jsonItemRow
  | _ => []

/-- The inner loop shared by the extractors: normalize every dict element
of every candidate array found in a payload. -/
def rowsFromPayloadData (data : Json) : List Row :=
  (find_result_arrays data 0 5).flatMap candidateRows

/-- The key filter of `extract_sts_data`. -/
def stsKeyFilter : List String :=
  ["bibno", "bib_no", "first_name", "finished_time", "gun_time"]

/-- The per-item step of `extract_sts_data`: normalize only dict items
carrying one of the STS keys. -/
def stsItemRow (item : Json) : Option Row :=
  match item with
  | Json.obj f =>
    if stsKeyFilter.any (fun k => f.any (fun kv => kv.1 == k)) then
      normalize_result_row f
    else none
  | _ => none

/-- All STS-filtered normalized rows of one candidate. -/
def stsCandidateRows (c : Json) : List Row :=
  match c with
  | Json.arr xs => xs.filterMap stsItemRow
  | _ => []

/-- `extract_sts_data` from the source: keep only dict items carrying one
of the STS keys, normalize, then deduplicate. -/
def extract_sts_data (resps : List RawPayload) : List Row :=
  deduplicate_results (resps.flatMap (fun resp =>
    (find_result_arrays resp.data 0 5).flatMap stsCandidateRows))

/-- `extract_mysamay_data` from the source. -/
def extract_mysamay_data (resps : List RawPayload) : List Row :=
  deduplicate_results (resps.flatMap (fun resp => rowsFromPayloadData resp.data))

/-- `extract_generic_data` from the source: stable sort of payloads by
byte size descending, then the shared extraction loop and deduplication. -/
def extract_generic_data (resps : List RawPayload) : List Row :=
  deduplicate_results
    ((resps.mergeSort (fun a b => Nat.ble b.byte_size a.byte_size)).flatMap
      (fun resp => rowsFromPayloadData resp.data))

/-- The platform dispatch of `intercept_api_data`: `captured_data` as
produced by the JSON path for the given platform key. -/
def platformExtract (platform_key : String) (resps : List RawPayload) : List Row :=
  if platform_key == "sts" then extract_sts_data resps
  else if platform_key == "mysamay" then extract_mysamay_data resps
  else extract_generic_data resps

/-- The pure dispatch of `intercept_api_data`: pick the platform
extractor, and fall back to DOM table scraping exactly when the JSON path
yielded zero rows. -/
def intercept_api_data (platform_key : String) (resps : List RawPayload)
    (tables : List DomTable) : List Row :=
  if (platformExtract platform_key resps).isEmpty then scrape_dom_table tables
  else platformExtract platform_key resps

/-- `COLUMN_ORDER` from the source — the fixed canonical output schema. -/
def COLUMN_ORDER : List String :=
  ["bib", "full_name", "first_name", "last_name", "gender", "age_group",
   "category", "race_category", "club", "city", "country", "nationality",
   "chip_time", "gun_time", "pace", "gun_pace",
   "overall_rank", "category_rank", "gender_rank"]

/-- A rendered table with results-like headers but only one data row
(scenario C of the spec, as written). -/
def singleDataRowTable : DomTable :=
  ⟨[⟨[⟨true, "Bib"⟩, ⟨true, "Name"⟩, ⟨true, "Finish Time"⟩]⟩,
    ⟨[⟨false, "55"⟩, ⟨false, "Ravi Shah"⟩, ⟨false, "01:02:33"⟩]⟩]⟩

/-- The same table with a second data row, so it passes the minimum-row
check. -/
def twoDataRowTable : DomTable :=
  ⟨[⟨[⟨true, "Bib"⟩, ⟨true, "Name"⟩, ⟨true, "Finish Time"⟩]⟩,
    ⟨[⟨false, "55"⟩, ⟨false, "Ravi Shah"⟩, ⟨false, "01:02:33"⟩]⟩,
    ⟨[⟨false, "56"⟩, ⟨false, "Meera Iyer"⟩, ⟨false, "01:05:10"⟩]⟩]⟩

/-- A non-results table (no results keyword in its headers). -/
def sponsorTable : DomTable :=
  ⟨[⟨[⟨true, "Sponsor"⟩, ⟨true, "Logo"⟩]⟩,
    ⟨[⟨false, "Acme"⟩, ⟨false, "a.png"⟩]⟩,
    ⟨[⟨false, "Zen"⟩, ⟨false, "z.png"⟩]⟩]⟩

/-- A rendered table whose only mapped column is a rank column: its rows
carry no identity field. -/
def rankOnlyTable : DomTable :=
  ⟨[⟨[⟨true, "Rank"⟩, ⟨true, "Time"⟩]⟩,
    ⟨[⟨false, "1"⟩, ⟨false, "00:30:00"⟩]⟩,
    ⟨[⟨false, "2"⟩, ⟨false, "00:31:00"⟩]⟩]⟩

/-- A rendered table whose two data rows are identical, sharing the bib
key `55`. -/
def duplicateRowTable : DomTable :=
  ⟨[⟨[⟨true, "Bib"⟩, ⟨true, "Name"⟩, ⟨true, "Time"⟩]⟩,
    ⟨[⟨false, "55"⟩, ⟨false, "Ravi Shah"⟩, ⟨false, "01:02:33"⟩]⟩,
    ⟨[⟨false, "55"⟩, ⟨false, "Ravi Shah"⟩, ⟨false, "01:02:33"⟩]⟩]⟩

/-- Reachability from a JSON root to a subvalue through a chain of at most
`n` object-value steps (the only way `find_result_arrays` descends). -/
inductive DictChain : Nat → Json → Json → Prop where
  | here (n : Nat) (j : Json) : DictChain n j j
  | via (n : Nat) (fields : List (String × Json)) (k : String) (v : Json)
      (c : Json) : (k, v) ∈ fields → DictChain n v c →
      DictChain (n + 1) (Json.obj fields) c

/-! ### Helper lemmas about row operations -/

theorem rowHas_rowInsert (k v k' : String) :
    ∀ r : Row, rowHas (rowInsert r k v) k' = (k' == k || rowHas r k') := by
  intro r
  induction r with
  | nil =>
    show ((k == k') || false) = ((k' == k) || false)
    by_cases h : k' = k
    · subst h; rfl
    · have e1 : (k == k') = false := beq_eq_false_iff_ne.mpr (fun e => h e.symm)
      have e2 : (k' == k) = false := beq_eq_false_iff_ne.mpr h
      rw [e1, e2]
  | cons p r ih =>
    by_cases h : p.1 = k
    · have hb : ((p.1 == k) = true) := by simp [beq_iff_eq, h]
      simp only [rowInsert, if_pos hb]
      simp only [rowHas, List.any_cons, h]
      by_cases hk : k = k'
      · simp [hk]
      · have e1 : (k == k') = false := beq_eq_false_iff_ne.mpr hk
        have e2 : (k' == k) = false := beq_eq_false_iff_ne.mpr (fun e => hk e.symm)
        rw [e1, e2]
        simp
    · have hb : ¬ ((p.1 == k) = true) := by simpa [beq_iff_eq] using h
      simp only [rowInsert, if_neg hb]
      simp only [rowHas, List.any_cons] at ih ⊢
      rw [ih]
      cases hpk : (p.1 == k') <;> cases hk : (k' == k) <;> simp

theorem rowGet_rowInsert_self (k v : String) :
    ∀ r : Row, rowGet (rowInsert r k v) k = v := by
  intro r
  induction r with
  | nil => simp [rowGet, rowInsert]
  | cons p r ih =>
    by_cases h : p.1 = k
    · simp [rowGet, rowInsert, h]
    · have hb : ¬ ((p.1 == k) = true) := by simpa [beq_iff_eq] using h
      have hb2 : (p.1 == k) = false := by rwa [Bool.not_eq_true] at hb
      simp only [rowInsert, if_neg hb]
      simp only [rowGet] at ih ⊢
      rw [List.find?_cons, hb2]
      exact ih

/-! ### Keys produced by the normalizer -/

theorem rowHas_normalizeFieldStep (row : Row) (kv : String × Json) (k : String) :
    rowHas (normalizeFieldStep row kv) k = true →
    rowHas row k = true ∨ k ∈ FIELD_MAP.map Prod.snd := by
  unfold normalizeFieldStep
  cases hf : fieldMapGet (pyLower kv.1) with
  | none => intro h; exact Or.inl h
  | some nk =>
    have hnk : nk ∈ FIELD_MAP.map Prod.snd := by
      unfold fieldMapGet at hf
      cases hfind : FIELD_MAP.find? (fun p => p.1 == pyLower kv.1) with
      | none =>
        rw [hfind] at hf
        exact Option.noConfusion hf
      | some p =>
        rw [hfind] at hf
        have hp : p.2 = nk := Option.some.inj hf
        rw [← hp]
        exact List.mem_map_of_mem Prod.snd (List.mem_of_find?_eq_some hfind)
    cases kv.2 with
    | obj fields => intro h; exact Or.inl h
    | null =>
      intro h
      rw [rowHas_rowInsert] at h
      rcases Bool.or_eq_true_iff.mp h with h | h
      · exact Or.inr (by rwa [beq_iff_eq.mp h])
      · exact Or.inl h
    | bool b =>
      intro h
      rw [rowHas_rowInsert] at h
      rcases Bool.or_eq_true_iff.mp h with h | h
      · exact Or.inr (by rwa [beq_iff_eq.mp h])
      · exact Or.inl h
    | num n =>
      intro h
      rw [rowHas_rowInsert] at h
      rcases Bool.or_eq_true_iff.mp h with h | h
      · exact Or.inr (by rwa [beq_iff_eq.mp h])
      · exact Or.inl h
    | str s =>
      intro h
      rw [rowHas_rowInsert] at h
      rcases Bool.or_eq_true_iff.mp h with h | h
      · exact Or.inr (by rwa [beq_iff_eq.mp h])
      · exact Or.inl h
    | arr xs =>
      intro h
      rw [rowHas_rowInsert] at h
      rcases Bool.or_eq_true_iff.mp h with h | h
      · exact Or.inr (by rwa [beq_iff_eq.mp h])
      · exact Or.inl h

theorem rowHas_mapRowFields_aux :
    ∀ (item : List (String × Json)) (acc : Row) (k : String),
      rowHas (item.foldl normalizeFieldStep acc) k = true →
      rowHas acc k = true ∨ k ∈ FIELD_MAP.map Prod.snd := by
  intro item
  induction item with
  | nil => intro acc k h; exact Or.inl h
  | cons kv rest ih =>
    intro acc k h
    rcases ih (normalizeFieldStep acc kv) k h with h' | h'
    · exact rowHas_normalizeFieldStep acc kv k h'
    · exact Or.inr h'

theorem rowHas_mapRowFields (item : List (String × Json)) (k : String) :
    rowHas (mapRowFields item) k = true → k ∈ FIELD_MAP.map Prod.snd := by
  intro h
  rcases rowHas_mapRowFields_aux item [] k h with h' | h'
  · have hf : rowHas ([] : Row) k = false := rfl
    rw [hf] at h'
    exact Bool.noConfusion h'
  · exact h'

/-! ### Deduplication loop invariants -/

theorem dedupGo_sublist : ∀ (l : List Row) (seen : List String),
    (dedupGo seen l).Sublist l := by
  intro l
  induction l with
  | nil => intro seen; simp [dedupGo]
  | cons row rest ih =>
    intro seen
    by_cases h : rowKey row ≠ "" ∧ ¬ rowKey row ∈ seen
    · simp only [dedupGo, if_pos h]
      exact (ih (rowKey row :: seen)).cons₂ row
    · simp only [dedupGo, if_neg h]
      exact (ih seen).cons row

theorem dedupGo_mem_key : ∀ (l : List Row) (seen : List String) (r : Row),
    r ∈ dedupGo seen l → rowKey r ≠ "" ∧ ¬ rowKey r ∈ seen := by
  intro l
  induction l with
  | nil => intro seen r h; simp [dedupGo] at h
  | cons row rest ih =>
    intro seen r h
    by_cases hc : rowKey row ≠ "" ∧ ¬ rowKey row ∈ seen
    · simp only [dedupGo, if_pos hc] at h
      rcases List.mem_cons.mp h with h | h
      · subst h; exact hc
      · have := ih (rowKey row :: seen) r h
        exact ⟨this.1, fun hm => this.2 (List.mem_cons_of_mem _ hm)⟩
    · simp only [dedupGo, if_neg hc] at h
      exact ih seen r h

theorem dedupGo_pairwise : ∀ (l : List Row) (seen : List String),
    (dedupGo seen l).Pairwise (fun a b => rowKey a ≠ rowKey b) := by
  intro l
  induction l with
  | nil => intro seen; simp [dedupGo]
  | cons row rest ih =>
    intro seen
    by_cases hc : rowKey row ≠ "" ∧ ¬ rowKey row ∈ seen
    · simp only [dedupGo, if_pos hc]
      refine List.Pairwise.cons ?_ (ih (rowKey row :: seen))
      intro b hb heq
      exact (dedupGo_mem_key rest _ b hb).2 (by rw [← heq]; exact List.mem_cons_self _ _)
    · simp only [dedupGo, if_neg hc]
      exact ih seen

theorem dedupGo_idem : ∀ (l : List Row) (seen : List String),
    dedupGo seen (dedupGo seen l) = dedupGo seen l := by
  intro l
  induction l with
  | nil => intro seen; simp [dedupGo]
  | cons row rest ih =>
    intro seen
    by_cases hc : rowKey row ≠ "" ∧ ¬ rowKey row ∈ seen
    · simp only [dedupGo, if_pos hc]
      rw [ih (rowKey row :: seen)]
    · simp only [dedupGo, if_neg hc]
      exact ih seen

theorem dedupGo_first_occ : ∀ (l : List Row) (seen : List String) (r : Row),
    r ∈ dedupGo seen l →
    ∃ l1 l2, l = l1 ++ r :: l2 ∧
      ∀ rp, rp ∈ l1 → rowKey rp ∈ seen ∨ rowKey rp ≠ rowKey r := by
  intro l
  induction l with
  | nil => intro seen r h; simp [dedupGo] at h
  | cons row rest ih =>
    intro seen r h
    by_cases hc : rowKey row ≠ "" ∧ ¬ rowKey row ∈ seen
    · simp only [dedupGo, if_pos hc] at h
      rcases List.mem_cons.mp h with h | h
      · subst h
        exact ⟨[], rest, rfl, fun rp hp => absurd hp (List.not_mem_nil rp)⟩
      · obtain ⟨l1, l2, heq, hl1⟩ := ih (rowKey row :: seen) r h
        have hrk : ¬ rowKey r ∈ rowKey row :: seen :=
          (dedupGo_mem_key rest _ r h).2
        refine ⟨row :: l1, l2, by rw [heq, List.cons_append], ?_⟩
        intro rp hp
        rcases List.mem_cons.mp hp with hp | hp
        · subst hp
          right
          intro heq2
          exact hrk (by rw [← heq2]; exact List.mem_cons_self _ _)
        · rcases hl1 rp hp with hin | hne
          · rcases List.mem_cons.mp hin with hin | hin
            · right
              intro heq2
              exact hrk (by rw [← heq2, ← hin]; exact List.mem_cons_self _ _)
            · exact Or.inl hin
          · exact Or.inr hne
    · simp only [dedupGo, if_neg hc] at h
      obtain ⟨l1, l2, heq, hl1⟩ := ih seen r h
      refine ⟨row :: l1, l2, by rw [heq, List.cons_append], ?_⟩
      intro rp hp
      rcases List.mem_cons.mp hp with hp | hp
      · subst hp
        rcases Decidable.not_and_iff_or_not.mp hc with hk | hk
        · right
          have hk0 : rowKey rp = "" := Decidable.not_not.mp hk
          have := (dedupGo_mem_key rest seen r h).1
          rw [hk0]
          exact fun e => this e.symm
        · exact Or.inl (Decidable.not_not.mp hk)
      · exact hl1 rp hp

/-! ### Score decomposition -/

theorem foldl_if_contains_add (c : Nat) :
    ∀ (l : List String) (keys : List String) (acc : Nat),
      l.foldl (fun a s => if keys.contains s then a + c else a) acc
        = acc + c * (l.filter (fun s => keys.contains s)).length := by
  intro l
  induction l with
  | nil => intro keys acc; simp
  | cons x t ih =>
    intro keys acc
    by_cases h : keys.contains x
    · simp only [List.foldl_cons, List.filter_cons, h, if_pos, List.length_cons]
      rw [ih]
      ring
    · simp only [List.foldl_cons, List.filter_cons]
      rw [if_neg h, if_neg (by simpa using h)]
      exact ih keys acc

theorem score_obj_eq (fields : List (String × Json)) (xs : List Json) :
    score_result_array (Json.obj fields :: xs) =
      2 * ((strongKeys.filter
              (fun s => (fields.map (fun kv => pyLower kv.1)).contains s)).length) +
      (moderateKeys.filter
          (fun m => (fields.map (fun kv => pyLower kv.1)).contains m)).length +
      ((if 20 < xs.length + 1 then 2 else 0) +
        (if 100 < xs.length + 1 then 2 else 0)) := by
  unfold score_result_array
  simp only [List.length_cons]
  rw [foldl_if_contains_add, foldl_if_contains_add]
  by_cases h20 : 20 < xs.length + 1 <;> by_cases h100 : 100 < xs.length + 1 <;>
    simp only [h20, h100, if_pos, if_neg, if_true, if_false, gt_iff_lt] <;> omega

/-! ### Traversal structure of the candidate array finder -/

theorem findGo_mem : ∀ (fuel : Nat) (data c : Json),
    c ∈ findGo fuel data →
    (∃ xs, c = Json.arr xs) ∧ DictChain (fuel - 1) data c := by
  intro fuel
  induction fuel with
  | zero => intro data c h; simp [findGo] at h
  | succ f ih =>
    intro data c h
    cases data with
    | null => simp [findGo] at h
    | bool b => simp [findGo] at h
    | num n => simp [findGo] at h
    | str s => simp [findGo] at h
    | arr items =>
      cases items with
      | nil => simp [findGo] at h
      | cons x xs =>
        cases x with
        | obj g =>
          simp only [findGo] at h
          by_cases hs : score_result_array (Json.obj g :: xs) > 2
          · rw [if_pos hs] at h
            rcases List.mem_singleton.mp h with h
            subst h
            exact ⟨⟨Json.obj g :: xs, rfl⟩, DictChain.here _ _⟩
          · rw [if_neg hs] at h
            exact absurd h (List.not_mem_nil c)
        | null => simp [findGo] at h
        | bool b => simp [findGo] at h
        | num n => simp [findGo] at h
        | str s => simp [findGo] at h
        | arr ys => simp [findGo] at h
    | obj fields =>
      simp only [findGo] at h
      rw [List.mem_flatMap] at h
      obtain ⟨kv, hkv, hc⟩ := h
      by_cases hl : isListOrDict kv.2
      · rw [if_pos hl] at hc
        cases f with
        | zero => simp [findGo] at hc
        | succ g =>
          obtain ⟨hshape, hchain⟩ := ih kv.2 c hc
          refine ⟨hshape, ?_⟩
          have : DictChain (g + 1) (Json.obj fields) c :=
            DictChain.via g fields kv.1 kv.2 c (by simpa using hkv) (by simpa using hchain)
          simpa using this
      · rw [if_neg hl] at hc
        exact absurd hc (List.not_mem_nil c)

theorem find_result_arrays_depth_empty (data : Json) (d md : Nat) (h : md < d) :
    find_result_arrays data d md = [] := by
  have h0 : md + 1 - d = 0 := by omega
  rw [find_result_arrays, h0]
  rfl

/-! ### The normalizer always leaves an identity field -/

theorem normalize_some_identity (item : List (String × Json)) (r : Row) :
    normalize_result_row item = some r →
    (rowHas r "bib" || rowHas r "full_name" || rowHas r "first_name") = true := by
  unfold normalize_result_row
  intro h
  by_cases hid : (rowHas (mapRowFields item) "bib" || rowHas (mapRowFields item) "full_name"
      || rowHas (mapRowFields item) "first_name") = true
  · rw [if_pos hid] at h
    by_cases hsyn : (!rowHas (mapRowFields item) "full_name"
        && rowHas (mapRowFields item) "first_name") = true
    · rw [if_pos hsyn] at h
      have hr := Option.some.inj h
      subst hr
      have : rowHas (rowInsert (mapRowFields item) "full_name"
          (joinNameParts (rowGet (mapRowFields item) "first_name")
            (rowGet (mapRowFields item) "last_name"))) "full_name" = true := by
        rw [rowHas_rowInsert]
        simp
      rw [this]
      simp
    · rw [if_neg hsyn] at h
      have hr := Option.some.inj h
      subst hr
      exact hid
  · rw [if_neg hid] at h
    exact Option.noConfusion h

/-! ### Rows produced by the DOM scraper are never empty -/

theorem scrape_mem_ne_nil (tables : List DomTable) (r : Row) :
    r ∈ scrape_dom_table tables → r ≠ [] := by
  intro h
  rw [scrape_dom_table, List.mem_flatMap] at h
  obtain ⟨t, _, hr⟩ := h
  unfold scrapeTable at hr
  split at hr
  · exact absurd hr (List.not_mem_nil r)
  · split at hr
    · exact absurd hr (List.not_mem_nil r)
    · split at hr
      · exact absurd hr (List.not_mem_nil r)
      · split at hr
        · exact absurd hr (List.not_mem_nil r)
        · rw [List.mem_filterMap] at hr
          obtain ⟨tr, _, heq⟩ := hr
          unfold extractBodyRow at heq
          split at heq
          · exact Option.noConfusion heq
          · split at heq
            · exact Option.noConfusion heq
            · rename_i hne
              have hr2 := Option.some.inj heq
              subst hr2
              intro hnil
              rw [hnil] at hne
              exact hne rfl

/-! ### Every JSON-path row is a normalizer output -/

theorem mem_rowsFromPayloadData (data : Json) (r : Row) :
    r ∈ rowsFromPayloadData data →
    ∃ f, normalize_result_row f = some r := by
  intro h
  rw [rowsFromPayloadData, List.mem_flatMap] at h
  obtain ⟨c, _, hr⟩ := h
  cases c with
  | null => exact absurd hr (List.not_mem_nil r)
  | bool b => exact absurd hr (List.not_mem_nil r)
  | num n => exact absurd hr (List.not_mem_nil r)
  | str s => exact absurd hr (List.not_mem_nil r)
  | obj g => exact absurd hr (List.not_mem_nil r)
  | arr xs =>
    rw [show candidateRows (Json.arr xs) = xs.filterMap jsonItemRow from rfl,
      List.mem_filterMap] at hr
    obtain ⟨item, _, heq⟩ := hr
    cases item with
    | obj f => exact ⟨f, heq⟩
    | null => exact Option.noConfusion heq
    | bool b => exact Option.noConfusion heq
    | num n => exact Option.noConfusion heq
    | str s => exact Option.noConfusion heq
    | arr ys => exact Option.noConfusion heq

theorem mem_stsCandidateRows (c : Json) (r : Row) :
    r ∈ stsCandidateRows c → ∃ f, normalize_result_row f = some r := by
  intro hr
  cases c with
  | null => exact absurd hr (List.not_mem_nil r)
  | bool b => exact absurd hr (List.not_mem_nil r)
  | num n => exact absurd hr (List.not_mem_nil r)
  | str s => exact absurd hr (List.not_mem_nil r)
  | obj g => exact absurd hr (List.not_mem_nil r)
  | arr xs =>
    rw [show stsCandidateRows (Json.arr xs) = xs.filterMap stsItemRow from rfl,
      List.mem_filterMap] at hr
    obtain ⟨item, _, heq⟩ := hr
    cases item with
    | obj f =>
      have heq2 : (if (stsKeyFilter.any fun k => f.any fun kv => kv.1 == k) = true
          then normalize_result_row f else none) = some r := heq
      split at heq2
      · exact ⟨f, heq2⟩
      · exact Option.noConfusion heq2
    | null => exact Option.noConfusion heq
    | bool b => exact Option.noConfusion heq
    | num n => exact Option.noConfusion heq
    | str s => exact Option.noConfusion heq
    | arr ys => exact Option.noConfusion heq

theorem mem_of_mem_deduplicate (l : List Row) (r : Row) :
    r ∈ deduplicate_results l → r ∈ l := by
  intro h
  exact (dedupGo_sublist l []).subset h

theorem mem_extract_sts (resps : List RawPayload) (r : Row) :
    r ∈ extract_sts_data resps → ∃ f, normalize_result_row f = some r := by
  intro h
  have h2 := mem_of_mem_deduplicate _ _ h
  rw [List.mem_flatMap] at h2
  obtain ⟨resp, _, h2⟩ := h2
  rw [List.mem_flatMap] at h2
  obtain ⟨c, _, h2⟩ := h2
  exact mem_stsCandidateRows c r h2

theorem mem_extract_mysamay (resps : List RawPayload) (r : Row) :
    r ∈ extract_mysamay_data resps → ∃ f, normalize_result_row f = some r := by
  intro h
  have h2 := mem_of_mem_deduplicate _ _ h
  rw [List.mem_flatMap] at h2
  obtain ⟨resp, _, h2⟩ := h2
  exact mem_rowsFromPayloadData resp.data r h2

theorem mem_extract_generic (resps : List RawPayload) (r : Row) :
    r ∈ extract_generic_data resps → ∃ f, normalize_result_row f = some r := by
  intro h
  have h2 := mem_of_mem_deduplicate _ _ h
  rw [List.mem_flatMap] at h2
  obtain ⟨resp, _, h2⟩ := h2
  exact mem_rowsFromPayloadData resp.data r h2

theorem mem_platformExtract (pk : String) (resps : List RawPayload) (r : Row) :
    r ∈ platformExtract pk resps → ∃ f, normalize_result_row f = some r := by
  intro h
  unfold platformExtract at h
  split at h
  · exact mem_extract_sts resps r h
  · split at h
    · exact mem_extract_mysamay resps r h
    · exact mem_extract_generic resps r h

/-! ### Claim theorems -/

/-- C1 (counterexample): the pipeline's DOM fallback can hand the writer a
row with none of `bib`, `full_name`, `first_name`: a rendered table whose
headers are `Rank` / `Time` passes the results-keyword gate, maps only its
rank column, and its rows reach the final ResultSet with no identity
field. -/
theorem dom_row_without_identity :
    intercept_api_data "mysamay" [] [rankOnlyTable] =
      [[("overall_rank", "1")], [("overall_rank", "2")]] ∧
    (rowHas [("overall_rank", "1")] "bib" ||
      rowHas [("overall_rank", "1")] "full_name" ||
      rowHas [("overall_rank", "1")] "first_name") = false := by
  constructor
  · rfl
  · rfl

/-- C1 (amended): every row of the pipeline's final ResultSet either
carries at least one of `bib`, `full_name`, `first_name` (always the case
for rows produced via `normalize_result_row` on the JSON path), or is a
DOM-fallback row, which is only guaranteed to be non-empty. -/
theorem pipeline_identity_amended :
    ∀ (platform_key : String) (resps : List RawPayload) (tables : List DomTable)
      (r : Row),
      r ∈ intercept_api_data platform_key resps tables →
      (rowHas r "bib" || rowHas r "full_name" || rowHas r "first_name") = true ∨
      (r ∈ scrape_dom_table tables ∧ r ≠ []) := by
  intro pk resps tables r h
  unfold intercept_api_data at h
  split at h
  · exact Or.inr ⟨h, scrape_mem_ne_nil tables r h⟩
  · obtain ⟨f, hf⟩ := mem_platformExtract pk resps r h
    exact Or.inl (normalize_some_identity f r hf)

/-- C1 (witness): the amended theorem applied to a concrete pipeline run
over a single two-data-row table. -/
theorem pipeline_identity_amended_witness :
    (rowHas [("bib", "55"), ("full_name", "Ravi Shah"), ("chip_time", "01:02:33")] "bib" ||
      rowHas [("bib", "55"), ("full_name", "Ravi Shah"), ("chip_time", "01:02:33")] "full_name" ||
      rowHas [("bib", "55"), ("full_name", "Ravi Shah"), ("chip_time", "01:02:33")] "first_name") = true ∨
    ([("bib", "55"), ("full_name", "Ravi Shah"), ("chip_time", "01:02:33")]
        ∈ scrape_dom_table [twoDataRowTable] ∧
      [("bib", "55"), ("full_name", "Ravi Shah"), ("chip_time", "01:02:33")] ≠ ([] : Row)) :=
  pipeline_identity_amended "mysamay" [] [twoDataRowTable]
    [("bib", "55"), ("full_name", "Ravi Shah"), ("chip_time", "01:02:33")] (by decide)

/-- C3 (counterexample): the ResultSet handed to the writer by the DOM
fallback is not deduplicated: a table with two identical data rows
produces two rows sharing the non-empty dedup key `55`. -/
theorem dom_fallback_duplicate_rows :
    intercept_api_data "mysamay" [] [duplicateRowTable] =
      [[("bib", "55"), ("full_name", "Ravi Shah")],
       [("bib", "55"), ("full_name", "Ravi Shah")]] ∧
    rowKey [("bib", "55"), ("full_name", "Ravi Shah")] = "55" := by
  constructor
  · rfl
  · rfl

/-- C3 (amended): for every ResultSet produced by the JSON path (the
output of `deduplicate_results`), no two distinct rows share a dedup key,
and each kept row is the first occurrence of its key in processing order;
the DOM-fallback ResultSet bypasses deduplication. -/
theorem dedup_invariant_amended :
    ∀ l : List Row,
      (deduplicate_results l).Pairwise (fun a b => rowKey a ≠ rowKey b) ∧
      (∀ r, r ∈ deduplicate_results l →
        ∃ l1 l2, l = l1 ++ r :: l2 ∧ ∀ rp, rp ∈ l1 → rowKey rp ≠ rowKey r) := by
  intro l
  constructor
  · exact dedupGo_pairwise l []
  · intro r hr
    obtain ⟨l1, l2, heq, hl1⟩ := dedupGo_first_occ l [] r hr
    refine ⟨l1, l2, heq, ?_⟩
    intro rp hp
    rcases hl1 rp hp with hin | hne
    · exact absurd hin (List.not_mem_nil _)
    · exact hne

/-- C3 (witness): the amended theorem applied to a concrete two-row list
whose rows share the key `7`. -/
theorem dedup_invariant_amended_witness :
    ∃ l1 l2,
      [[("bib", "7"), ("full_name", "A")], [("bib", "7"), ("full_name", "B")]] =
        l1 ++ [("bib", "7"), ("full_name", "A")] :: l2 ∧
      ∀ rp, rp ∈ l1 → rowKey rp ≠ rowKey [("bib", "7"), ("full_name", "A")] :=
  (dedup_invariant_amended
    [[("bib", "7"), ("full_name", "A")], [("bib", "7"), ("full_name", "B")]]).2
    [("bib", "7"), ("full_name", "A")] (by decide)

/-- C4 (counterexample): a row whose `bib` and `full_name` are both empty
strings is dropped by `deduplicate_results`, not passed through: its dedup
key is falsy, so the `if key and key not in seen` guard never appends
it. -/
theorem dual_empty_row_dropped :
    deduplicate_results [[("bib", ""), ("full_name", "")]] = [] ∧
    rowKey [("bib", ""), ("full_name", "")] = "" := by
  constructor
  · rfl
  · rfl

/-- C4 (amended): rows whose `bib` and `full_name` are both empty are
dropped by `deduplicate_results`: every row of its output has a non-empty
dedup key. -/
theorem dedup_output_keys_nonempty :
    ∀ (l : List Row) (r : Row), r ∈ deduplicate_results l → rowKey r ≠ "" := by
  intro l r h
  exact (dedupGo_mem_key l [] r h).1

/-- C4 (witness): the amended theorem applied to a concrete singleton
list. -/
theorem dedup_output_keys_nonempty_witness :
    rowKey [("bib", "5")] ≠ "" :=
  dedup_output_keys_nonempty [[("bib", "5")]] [("bib", "5")] (by decide)

/-- C10: `deduplicate_results` is idempotent, and its output is a
subsequence of its input (kept rows appear in their original relative
order). -/
theorem deduplicate_results_idem_sublist :
    ∀ l : List Row,
      deduplicate_results (deduplicate_results l) = deduplicate_results l ∧
      (deduplicate_results l).Sublist l := by
  intro l
  exact ⟨dedupGo_idem l [], dedupGo_sublist l []⟩

/-- C2: `normalize_result_row` returns `none` exactly when none of `bib`,
`full_name`, `first_name` is present after key mapping; and when
`full_name` is absent but `first_name` is present, the returned row's
`full_name` is the non-empty ones of `first_name` and `last_name` joined
with a single space and trimmed. -/
theorem normalize_result_row_spec :
    ∀ item : List (String × Json),
      ((normalize_result_row item = none) ↔
        (rowHas (mapRowFields item) "bib" || rowHas (mapRowFields item) "full_name" ||
          rowHas (mapRowFields item) "first_name") = false) ∧
      (∀ r, normalize_result_row item = some r →
        rowHas (mapRowFields item) "full_name" = false →
        rowHas (mapRowFields item) "first_name" = true →
        rowGet r "full_name" =
          pyStrip (String.intercalate " "
            (([rowGet (mapRowFields item) "first_name",
               rowGet (mapRowFields item) "last_name"]).filter (fun p => p ≠ "")))) := by
  intro item
  constructor
  · unfold normalize_result_row
    by_cases hid : (rowHas (mapRowFields item) "bib" ||
        rowHas (mapRowFields item) "full_name" ||
        rowHas (mapRowFields item) "first_name") = true
    · rw [if_pos hid]
      constructor
      · intro h
        split at h
        · exact Option.noConfusion h
        · exact Option.noConfusion h
      · intro h
        rw [h] at hid
        exact Bool.noConfusion hid
    · rw [if_neg hid]
      constructor
      · intro _
        exact Bool.not_eq_true _ ▸ (Bool.eq_false_iff.mpr (fun he => hid he))
      · intro _
        rfl
  · intro r h hful hfirst
    unfold normalize_result_row at h
    rw [if_pos (by rw [hful, hfirst]; simp)] at h
    rw [if_pos (by rw [hful, hfirst]; rfl)] at h
    have hr := Option.some.inj h
    subst hr
    rw [rowGet_rowInsert_self]
    rfl

/-- C2 (witness): the spec theorem applied to a concrete source object
with separate first and last names. -/
theorem normalize_result_row_spec_witness :
    rowGet [("first_name", "Asha"), ("last_name", "Rao"), ("full_name", "Asha Rao")]
        "full_name" =
      pyStrip (String.intercalate " "
        (([rowGet (mapRowFields [("first_name", Json.str "Asha"),
              ("last_name", Json.str "Rao")]) "first_name",
           rowGet (mapRowFields [("first_name", Json.str "Asha"),
              ("last_name", Json.str "Rao")]) "last_name"]).filter (fun p => p ≠ ""))) :=
  (normalize_result_row_spec
      [("first_name", Json.str "Asha"), ("last_name", Json.str "Rao")]).2
    [("first_name", "Asha"), ("last_name", "Rao"), ("full_name", "Asha Rao")]
    (by decide) (by decide) (by decide)

/-- C5: for a non-empty array whose first element is an object, the
key-derived part of `score_result_array` is 2 per strong key plus 1 per
moderate key among the lower-cased top-level keys of the first element,
and no element beyond the first contributes (only the length does). -/
theorem score_key_decomposition :
    ∀ (fields : List (String × Json)) (xs : List Json),
      score_result_array (Json.obj fields :: xs) =
        2 * ((strongKeys.filter
              (fun s => (fields.map (fun kv => pyLower kv.1)).contains s)).length) +
        (moderateKeys.filter
            (fun m => (fields.map (fun kv => pyLower kv.1)).contains m)).length +
        ((if 20 < xs.length + 1 then 2 else 0) +
          (if 100 < xs.length + 1 then 2 else 0)) ∧
      (∀ ys : List Json, ys.length = xs.length →
        score_result_array (Json.obj fields :: ys) =
          score_result_array (Json.obj fields :: xs)) := by
  intro fields xs
  constructor
  · exact score_obj_eq fields xs
  · intro ys hlen
    rw [score_obj_eq, score_obj_eq, hlen]

/-- C5 (witness): the decomposition theorem applied to two concrete
equally-long arrays with different second elements. -/
theorem score_key_decomposition_witness :
    score_result_array (Json.obj [("bibno", Json.str "1")] :: [Json.null]) =
      score_result_array (Json.obj [("bibno", Json.str "1")] :: [Json.num 7]) :=
  (score_key_decomposition [("bibno", Json.str "1")] [Json.num 7]).2
    [Json.null] (by decide)

/-- C6 (counterexample): extending a 20-element array (first element an
object with one strong key) by 81 elements of identical schema crosses the
`> 100` bonus as well and raises the score by 4, not by 2. -/
theorem score_extension_plus_four :
    score_result_array
        (Json.obj [("bibno", Json.str "1")] :: List.replicate 100 Json.null) =
      score_result_array
        (Json.obj [("bibno", Json.str "1")] :: List.replicate 19 Json.null) + 4 ∧
    ¬ (score_result_array
        (Json.obj [("bibno", Json.str "1")] :: List.replicate 100 Json.null) =
      score_result_array
        (Json.obj [("bibno", Json.str "1")] :: List.replicate 19 Json.null) + 2) := by
  constructor
  · rfl
  · decide

/-- C6 (amended): extending a 20-element array whose first element is an
object by between 21 and 80 additional elements of identical schema (total
length between 41 and 100) raises `score_result_array` by exactly 2; with
81 or more additional elements (total length above 100) it rises by 4. -/
theorem score_extension_bonus_amended :
    ∀ (fields : List (String × Json)) (xs ys : List Json),
      xs.length = 19 →
      ((40 ≤ ys.length → ys.length ≤ 99 →
        score_result_array (Json.obj fields :: ys) =
          score_result_array (Json.obj fields :: xs) + 2) ∧
       (100 ≤ ys.length →
        score_result_array (Json.obj fields :: ys) =
          score_result_array (Json.obj fields :: xs) + 4)) := by
  intro fields xs ys hx
  constructor
  · intro h1 h2
    rw [score_obj_eq, score_obj_eq, hx]
    have e1 : (if 20 < (19 : Nat) + 1 then (2 : Nat) else 0) = 0 := by norm_num
    have e2 : (if 100 < (19 : Nat) + 1 then (2 : Nat) else 0) = 0 := by norm_num
    have e3 : (if 20 < ys.length + 1 then (2 : Nat) else 0) = 2 := by
      rw [if_pos (by omega)]
    have e4 : (if 100 < ys.length + 1 then (2 : Nat) else 0) = 0 := by
      rw [if_neg (by omega)]
    rw [e1, e2, e3, e4]
  · intro h1
    rw [score_obj_eq, score_obj_eq, hx]
    have e1 : (if 20 < (19 : Nat) + 1 then (2 : Nat) else 0) = 0 := by norm_num
    have e2 : (if 100 < (19 : Nat) + 1 then (2 : Nat) else 0) = 0 := by norm_num
    have e3 : (if 20 < ys.length + 1 then (2 : Nat) else 0) = 2 := by
      rw [if_pos (by omega)]
    have e4 : (if 100 < ys.length + 1 then (2 : Nat) else 0) = 2 := by
      rw [if_pos (by omega)]
    rw [e1, e2, e3, e4]

/-- C6 (witness): the amended theorem applied to concrete 20- and
50-element arrays with the same first element. -/
theorem score_extension_bonus_amended_witness :
    score_result_array
        (Json.obj [("chip_time", Json.str "t")] :: List.replicate 49 Json.null) =
      score_result_array
        (Json.obj [("chip_time", Json.str "t")] :: List.replicate 19 Json.null) + 2 :=
  (score_extension_bonus_amended [("chip_time", Json.str "t")]
      (List.replicate 19 Json.null) (List.replicate 49 Json.null) (by decide)).1
    (by decide) (by decide)

/-- C7 (counterexample): `FIELD_MAP` maps `age` to `age`, which is not in
the 19-name CanonicalField set (`COLUMN_ORDER`): a source object with an
`age` key yields a row carrying the out-of-schema key `age`. -/
theorem normalize_emits_age_key :
    normalize_result_row [("age", Json.num 30), ("name", Json.str "X")] =
      some [("age", "30"), ("full_name", "X")] ∧
    rowHas [("age", "30"), ("full_name", "X")] "age" = true ∧
    ¬ ("age" ∈ COLUMN_ORDER) := by
  refine ⟨rfl, rfl, ?_⟩
  decide

/-- C7 (amended): every field key of a row returned by
`normalize_result_row` lies in the CanonicalField set (`COLUMN_ORDER`)
extended with `age`. -/
theorem normalize_keys_canonical_or_age :
    ∀ (item : List (String × Json)) (r : Row) (k : String),
      normalize_result_row item = some r → rowHas r k = true →
      k ∈ "age" :: COLUMN_ORDER := by
  intro item r k h hk
  have hrange : ∀ x, x ∈ FIELD_MAP.map Prod.snd → x ∈ "age" :: COLUMN_ORDER := by
    decide
  have hbase : rowHas (mapRowFields item) k = true → k ∈ "age" :: COLUMN_ORDER :=
    fun hb => hrange k (rowHas_mapRowFields item k hb)
  unfold normalize_result_row at h
  by_cases hid : (rowHas (mapRowFields item) "bib" ||
      rowHas (mapRowFields item) "full_name" ||
      rowHas (mapRowFields item) "first_name") = true
  · rw [if_pos hid] at h
    by_cases hsyn : (!rowHas (mapRowFields item) "full_name" &&
        rowHas (mapRowFields item) "first_name") = true
    · rw [if_pos hsyn] at h
      have hr := Option.some.inj h
      subst hr
      rw [rowHas_rowInsert] at hk
      rcases Bool.or_eq_true_iff.mp hk with hk | hk
      · rw [beq_iff_eq.mp hk]
        decide
      · exact hbase hk
    · rw [if_neg hsyn] at h
      have hr := Option.some.inj h
      subst hr
      exact hbase hk
  · rw [if_neg hid] at h
    exact Option.noConfusion h

/-- C7 (witness): the amended theorem applied to the concrete row produced
from a source object with an `age` key. -/
theorem normalize_keys_canonical_or_age_witness :
    "age" ∈ "age" :: COLUMN_ORDER :=
  normalize_keys_canonical_or_age [("age", Json.num 30), ("name", Json.str "X")]
    [("age", "30"), ("full_name", "X")] "age" (by decide) (by decide)

/-- C8 (counterexample): a rendered table with headers
`Bib`/`Name`/`Finish Time` and a single data row `55`/`Ravi Shah`/
`01:02:33` is skipped entirely by the DOM extractor (it has fewer than 3
`tr` rows), so the claimed NormalizedRow is not produced. -/
theorem single_data_row_table_skipped :
    scrape_dom_table [singleDataRowTable] = [] ∧
    ¬ ([("bib", "55"), ("full_name", "Ravi Shah"), ("chip_time", "01:02:33")]
        ∈ scrape_dom_table [singleDataRowTable]) := by
  constructor
  · rfl
  · decide

/-- C8 (amended): with the minimum-row requirement satisfied (a second
data row added), the DOM extractor produces
`{bib: 55, full_name: Ravi Shah, chip_time: 01:02:33}` from the first data
row, while the `Sponsor`/`Logo` table contributes no rows; a table with
only one data row is skipped by the 3-row minimum. -/
theorem dom_scenario_amended :
    scrape_dom_table [twoDataRowTable, sponsorTable] =
      [[("bib", "55"), ("full_name", "Ravi Shah"), ("chip_time", "01:02:33")],
       [("bib", "56"), ("full_name", "Meera Iyer"), ("chip_time", "01:05:10")]] ∧
    scrape_dom_table [singleDataRowTable] = [] := by
  constructor
  · rfl
  · rfl

/-- C9: the candidate array finder emits candidates only at positions
reachable from the root through chains of object values within the depth
budget: past the maximum depth it returns no candidates (rather than
failing), and on an array node it either emits that array itself or
nothing — it never recurses into the elements of any array. -/
theorem find_result_arrays_traversal :
    (∀ (data : Json) (d md : Nat), md < d → find_result_arrays data d md = []) ∧
    (∀ (x : Json) (xs : List Json) (d md : Nat), d ≤ md →
      find_result_arrays (Json.arr (x :: xs)) d md =
        if isDictB x = true ∧ 2 < score_result_array (x :: xs)
        then [Json.arr (x :: xs)] else []) ∧
    (∀ (data : Json) (d md : Nat) (c : Json),
      c ∈ find_result_arrays data d md →
      (∃ xs, c = Json.arr xs) ∧ DictChain (md - d) data c) := by
  refine ⟨?_, ?_, ?_⟩
  · exact fun data d md h => find_result_arrays_depth_empty data d md h
  · intro x xs d md hle
    have hf : md + 1 - d = (md - d) + 1 := by omega
    rw [find_result_arrays, hf]
    cases x with
    | obj f =>
      simp only [findGo, isDictB]
      by_cases hs : 2 < score_result_array (Json.obj f :: xs)
      · rw [if_pos hs, if_pos ⟨trivial, hs⟩]
      · rw [if_neg hs, if_neg (fun hc => hs hc.2)]
    | null => simp [findGo, isDictB]
    | bool b => simp [findGo, isDictB]
    | num n => simp [findGo, isDictB]
    | str s => simp [findGo, isDictB]
    | arr ys => simp [findGo, isDictB]
  · intro data d md c h
    rw [find_result_arrays] at h
    obtain ⟨hs, hchain⟩ := findGo_mem (md + 1 - d) data c h
    refine ⟨hs, ?_⟩
    have he : md + 1 - d - 1 = md - d := by omega
    rwa [he] at hchain

/-- C9 (witness): the traversal theorem applied at depth 6 with maximum
depth 5 on a concrete payload: no candidates are returned. -/
theorem find_result_arrays_traversal_witness :
    find_result_arrays
        (Json.obj [("results", Json.arr
          [Json.obj [("bibno", Json.str "1"), ("rank", Json.num 2)]])]) 6 5 = [] :=
  find_result_arrays_traversal.1
    (Json.obj [("results", Json.arr
      [Json.obj [("bibno", Json.str "1"), ("rank", Json.num 2)]])]) 6 5 (by decide)

end RaceScraper
